import Mathlib

/-!
Shallow embedding of the promptql-ts-sdk-starter CLI script — the chunk-stream
fold of `processQuery`, the `extractLastTwoSentences` text utility, the CSV
question extractor, the table renderer and the spinner bookkeeping — together
with proofs of the specification's claims about them.

JavaScript strings are modelled as Lean `String` / `List Char`; the whitespace
class of the regexes `\s+` and of `String.prototype.trim`, and the line
terminators excluded by the regex metacharacter `.`, are explicit character
classes.  Mutable accumulation is modelled by explicit state passing and
`List.foldl`; terminal output is modelled as event traces.  Definitions come
first, then the lemmas and the claim theorems.
-/
/-- JavaScript whitespace: the class matched by `\s` and trimmed by `trim()`. -/
def isJsWs (c : Char) : Bool :=
  c == ' ' || c == '\t' || c == '\n' || c == '\r' || c == '\x0b' || c == '\x0c' ||
  c == '\u00A0' || c == '\u1680' || (0x2000 ≤ c.toNat && c.toNat ≤ 0x200A) ||
  c == '\u2028' || c == '\u2029' || c == '\u202F' || c == '\u205F' ||
  c == '\u3000' || c == '\uFEFF'

/-- JavaScript line terminators, the characters *not* matched by the regex `.`. -/
def isLineTerm (c : Char) : Bool :=
  c == '\n' || c == '\r' || c == '\u2028' || c == '\u2029'

/-- The sentence-ending characters of `extractLastTwoSentences`
(source: `const sentenceEndingChars = ['.', '!', '?']`). -/
def isPunct (c : Char) : Bool :=
  c == '.' || c == '!' || c == '?'

/-- JavaScript `String.prototype.trim` on a character list: drop leading and
trailing whitespace. -/
def trimList (l : List Char) : List Char :=
  ((l.dropWhile isJsWs).reverse.dropWhile isJsWs).reverse

/-- JavaScript `s.trim()` at `String` level. -/
def jsTrimStr (s : String) : String :=
  String.mk (trimList s.data)

/-- One pass of the replacement `.replace(/\s+/g, ' ')`: the flag records
whether the previous character was part of a whitespace run (in which case a
further whitespace character is dropped rather than emitting another `' '`). -/
def collapseWsAux : Bool → List Char → List Char
  | _, [] => []
  | prevWs, c :: rest =>
    if isJsWs c then
      if prevWs then collapseWsAux true rest
      else ' ' :: collapseWsAux true rest
    else c :: collapseWsAux false rest

/-- `.replace(/\s+/g, ' ')`: every maximal whitespace run becomes one space. -/
def collapseWs (l : List Char) : List Char :=
  collapseWsAux false l

/-- The literal characters of the regex fragment `<artifact`. -/
def artifactOpen : List Char :=
  ['<', 'a', 'r', 't', 'i', 'f', 'a', 'c', 't']

/-- The lazy tail `.*?\/>` of the regex `/<artifact.*?\/>/`: given the
characters after a matched `<artifact`, consume the shortest run of
non-line-terminator characters followed by `/>`, returning the remainder, or
`none` when no such close exists (the regex `.` does not match line
terminators, so a line terminator aborts the match attempt). -/
def afterLazyClose : List Char → Option (List Char)
  | '/' :: '>' :: rest => some rest
  | c :: rest => if isLineTerm c then none else afterLazyClose rest
  | [] => none

/-- The global replacement `.replace(/<artifact.*?\/>/g, '')`, scanning left to
right.  The fuel argument only bounds the recursion; each step consumes at
least one character, so fuel equal to the input length is never exhausted. -/
def stripFuel : Nat → List Char → List Char
  | 0, l => l
  | _ + 1, [] => []
  | fuel + 1, c :: rest =>
    if artifactOpen.isPrefixOf (c :: rest) then
      match afterLazyClose ((c :: rest).drop 9) with
      | some rem => stripFuel fuel rem
      | none => c :: stripFuel fuel rest
    else c :: stripFuel fuel rest

/-- `.replace(/<artifact.*?\/>/g, '')` on a character list. -/
def stripArtifacts (l : List Char) : List Char :=
  stripFuel l.length l

/-- The character-by-character sentence scan of `extractLastTwoSentences`:
`acc` is `currentSentence`; a segment ends after `.`, `!` or `?` when it is the
last character or the next character is a space; the trimmed segment is stored
and the accumulator reset; a non-empty trimmed leftover is kept at the end. -/
def scanAux (acc : List Char) : List Char → List (List Char)
  | [] =>
    if (trimList acc).isEmpty then [] else [trimList acc]
  | c :: rest =>
    if isPunct c && (rest.isEmpty || rest.head? == some ' ') then
      trimList (acc ++ [c]) :: scanAux [] rest
    else scanAux (acc ++ [c]) rest

/-- The cleaned text of `extractLastTwoSentences`: trim, strip artifact
markers, collapse whitespace runs to single spaces. -/
def cleanedText (l : List Char) : List Char :=
  collapseWs (stripArtifacts (trimList l))

/-- Core of `extractLastTwoSentences` on character lists: guard on
whitespace-only input, scan the cleaned text into segments, then return
`sentences.slice(-2).join(' ')` (respectively `sentences[0] || null`). -/
def extractCore (l : List Char) : Option (List Char) :=
  if (trimList l).isEmpty then none
  else
    match (scanAux [] (cleanedText l)).reverse with
    | [] => none
    | [s] => if s.isEmpty then none else some s
    | b :: a :: _ => some (a ++ ' ' :: b)

/-- `extractLastTwoSentences` from the source (`src/unnamed/part_001`). -/
def extractLastTwoSentences (text : String) : Option String :=
  (extractCore text.data).map String.mk

/-- Step (6) of the specification's algorithm, stated in its own words:
return the last segment alone if exactly one exists, the last two joined by a
single space if two or more exist, and null if zero. -/
def lastTwoPerSpec (ss : List (List Char)) : Option (List Char) :=
  match ss.reverse with
  | [] => none
  | [s] => some s
  | b :: a :: _ => some (a ++ ' ' :: b)

/-- The JavaScript values that can sit in a table cell. -/
inductive JsVal where
  | vNull
  | vUndefined
  | vBool (b : Bool)
  | vNum (n : Int)
  | vStr (s : String)
deriving DecidableEq

/-- JavaScript truthiness of a `JsVal`. -/
def jsTruthy : JsVal → Bool
  | .vNull => false
  | .vUndefined => false
  | .vBool b => b
  | .vNum n => n != 0
  | .vStr s => s != ""

/-- JavaScript `String(v)` on the modelled values. -/
def jsToString : JsVal → String
  | .vNull => "null"
  | .vUndefined => "undefined"
  | .vBool b => if b then "true" else "false"
  | .vNum n => toString n
  | .vStr s => s

/-- One record of a table payload: keys in insertion order with their values. -/
def TableRow : Type := List (String × JsVal)

instance : DecidableEq TableRow := by
  unfold TableRow
  infer_instance

/-- JavaScript property access `row[header]` on a record (first binding wins,
absent key gives `undefined`). -/
def rowGet (row : TableRow) (header : String) : JsVal :=
  match row.find? (fun p => p.1 == header) with
  | some p => p.2
  | none => .vUndefined

/-- One rendered cell: `String(row[header] || '')`. -/
def renderCell (v : JsVal) : String :=
  jsToString (if jsTruthy v then v else .vStr "")

/-- The cell text the renderer produces for a record and a header. -/
def cellOf (row : TableRow) (header : String) : String :=
  renderCell (rowGet row header)

/-- What `displayTableArtifact` prints: either the placeholder line or a grid
with a header row and one row of cell texts per record. -/
inductive TableRender where
  | placeholder (msg : String)
  | grid (head : List String) (rows : List (List String))
deriving DecidableEq

/-- Rendering one record of the payload.  A `none` record models a `null`/
`undefined` array element: past index 0 the source accesses `row[header]` on
it and would throw, which the model signals with `none`. -/
def renderRow (headers : List String) : Option TableRow → Option (List String)
  | none => none
  | some row => some (headers.map (fun h => cellOf row h))

/-- `displayTableArtifact` (source: `src/unnamed/part_001`, lines 114-136).
The payload is `none` for a `null`/`undefined` payload; a `none` element
models a falsy record.  The result is `none` exactly when the source would
throw, which the guard prevents for the placeholder cases. -/
def displayTableArtifact (tableData : Option (List (Option TableRow))) :
    Option TableRender :=
  match tableData with
  | none => some (.placeholder ("Empty table or invalid data"))
  | some [] => some (.placeholder ("Empty table or invalid data"))
  | some (none :: _) => some (.placeholder ("Empty table or invalid data"))
  | some (some first :: rest) =>
    let headers := first.map (fun p => p.1)
    ((some first :: rest).mapM (renderRow headers)).map (TableRender.grid headers)

/-- The artifact kinds of the `Artifact` type. -/
inductive ArtifactType where
  | text
  | table
  | visualization
deriving DecidableEq

/-- The `data` payload of an artifact. -/
inductive ArtifactData where
  | str (s : String)
  | rows (r : Option (List (Option TableRow)))
  | obj
deriving DecidableEq

/-- The `Artifact` type of the source. -/
structure Artifact where
  identifier : String
  title : String
  artifact_type : ArtifactType
  data : ArtifactData
deriving DecidableEq

/-- The `ResponseChunk` union of the source.  Optional string fields are
`Option String`; `none` models JavaScript `null`. -/
inductive Chunk where
  | message (message : Option String)
  | action (message : Option String) (plan : Option String) (code : Option String)
      (code_output : Option String) (code_error : Option String)
  | artifact (a : Artifact)
  | complete (message : Option String)
  | error (e : String)
deriving DecidableEq

/-- Truthiness of an optional string field (`if (chunk.message)`): `null` and
the empty string are falsy. -/
def strTruthy : Option String → Bool
  | none => false
  | some s => s != ""

/-- The per-question mutable state of `processQuery`, plus the list of errors
logged by the `error_chunk` case.  `artifactCount` stands for
`artifactTimestamps.length`; the guard `lastArtifactTime > 0` of the source is
`artifactCount > 0` here (`Date.now()` timestamps are positive). -/
structure FoldState where
  finalMessage : Option String
  artifactCount : Nat
  messageBetweenArtifacts : String
  betweenArtifactsMessage : Option String
  allStreamedText : String
  loggedErrors : List String
deriving DecidableEq

/-- The starting state of a question's fold. -/
def initFold : FoldState :=
  ⟨none, 0, "", none, "", []⟩

/-- The chunk callback of `processQuery` (source: `src/unnamed/part_001`,
lines 165-243), restricted to the state it mutates. -/
def handleChunk (s : FoldState) : Chunk → FoldState
  | .message m =>
    { s with
      allStreamedText :=
        if strTruthy m then s.allStreamedText ++ m.getD "" else s.allStreamedText
      messageBetweenArtifacts :=
        if s.artifactCount > 0 then s.messageBetweenArtifacts ++ m.getD ""
        else s.messageBetweenArtifacts }
  | .action m _ _ _ _ =>
    if strTruthy m then
      { s with
        allStreamedText := s.allStreamedText ++ m.getD ""
        messageBetweenArtifacts :=
          if s.artifactCount > 0 then s.messageBetweenArtifacts ++ m.getD ""
          else s.messageBetweenArtifacts }
    else s
  | .artifact _ =>
    if s.artifactCount + 1 ≥ 2 then
      { s with
        artifactCount := s.artifactCount + 1
        betweenArtifactsMessage := some (jsTrimStr s.messageBetweenArtifacts)
        messageBetweenArtifacts := "" }
    else { s with artifactCount := s.artifactCount + 1 }
  | .complete m => { s with finalMessage := m }
  | .error e =>
    if e != "" then { s with loggedErrors := s.loggedErrors ++ [e] } else s

/-- Folding a whole per-question chunk sequence, in arrival order. -/
def runFold (chunks : List Chunk) : FoldState :=
  chunks.foldl handleChunk initFold

/-- The text a chunk contributes to the streamed-text buffers: the message of
a message/action chunk (`null` contributing nothing), nothing otherwise. -/
def chunkText : Chunk → String
  | .message m => m.getD ""
  | .action m _ _ _ _ => m.getD ""
  | _ => ""

/-- Concatenation, in arrival order, of the message texts of message/action
chunks. -/
def msgConcat : List Chunk → String
  | [] => ""
  | c :: rest => chunkText c ++ msgConcat rest

/-- Whether a chunk is an `artifact_update_chunk`. -/
def isArtifactChunk : Chunk → Bool
  | .artifact _ => true
  | _ => false

/-- The number of artifact chunks of a sequence. -/
def countArtifacts : List Chunk → Nat
  | [] => 0
  | c :: rest => (if isArtifactChunk c then 1 else 0) + countArtifacts rest

/-- On a reversed chunk sequence: the chunks before the first artifact (that
is, after the last artifact in arrival order), still reversed; `none` when no
artifact occurs. -/
def beforeArtifactRev : List Chunk → Option (List Chunk)
  | [] => none
  | .artifact _ :: _ => some []
  | c :: rest => (beforeArtifactRev rest).map (fun l => c :: l)

/-- On a reversed chunk sequence: everything past the first artifact; `none`
when no artifact occurs. -/
def pastArtifactRev : List Chunk → Option (List Chunk)
  | [] => none
  | .artifact _ :: rest => some rest
  | _ :: rest => pastArtifactRev rest

/-- The specification's `textBetweenLastTwoArtifacts`: the trimmed
concatenation of the message texts that arrived strictly between the
second-to-last and the last artifact chunk, `none` when fewer than two
artifact chunks arrived. -/
def betweenLastTwoSpec (l : List Chunk) : Option String :=
  (pastArtifactRev l.reverse).bind fun afterLast =>
    (beforeArtifactRev afterLast).map fun segRev =>
      jsTrimStr (msgConcat segRev.reverse)

/-- On a reversed chunk sequence: the message of the first `complete` chunk
(that is, of the last one in arrival order); `none` when none occurs. -/
def firstCompleteRev : List Chunk → Option (Option String)
  | [] => none
  | .complete m :: _ => some m
  | _ :: rest => firstCompleteRev rest

/-- The errors the `error_chunk` case logs: every non-empty `error` field, in
arrival order. -/
def erroredSpec : List Chunk → List String
  | [] => []
  | .error e :: rest => if e != "" then e :: erroredSpec rest else erroredSpec rest
  | _ :: rest => erroredSpec rest

/-- The spinner flag together with a log of every terminal write; each write
records the value of `spinner.isSpinning` at the moment of the write. -/
structure SpinTrace where
  spinner : Bool
  writes : List Bool
deriving DecidableEq

/-- A terminal write: the current spinner flag is recorded. -/
def spinWrite (t : SpinTrace) : SpinTrace :=
  { t with writes := t.writes ++ [t.spinner] }

/-- `if (spinner.isSpinning) spinner.stop()` — in either case the spinner is
not spinning afterwards. -/
def spinStop (t : SpinTrace) : SpinTrace :=
  { t with spinner := false }

/-- `spinner.start()`. -/
def spinStart (t : SpinTrace) : SpinTrace :=
  { t with spinner := true }

/-- `displayArtifact`: stops the spinner, then prints the header line, a
delimiter, the payload (one `console.log`, whichever branch), and a
delimiter. -/
def displayArtifactSpin (t : SpinTrace) : SpinTrace :=
  spinWrite (spinWrite (spinWrite (spinWrite (spinStop t))))

/-- `displayFinalOutput`: stops the spinner, then prints the caption, a
delimiter, the message, and a delimiter. -/
def displayFinalOutputSpin (t : SpinTrace) : SpinTrace :=
  spinWrite (spinWrite (spinWrite (spinWrite (spinStop t))))

/-- The spinner/terminal effects of the chunk callback, per chunk: the same
case analysis as `handleChunk`, keeping only stops, starts and writes
(`displayStreamingMessage` writes only a truthy message; the action case
prints a line break and starts the spinner only when it is not spinning and a
plan or code is present; the error case prints only a non-empty error). -/
def handleChunkSpin (t : SpinTrace) : Chunk → SpinTrace
  | .message m =>
    let t := spinStop t
    if strTruthy m then spinWrite t else t
  | .action m plan code _ _ =>
    let t := if strTruthy m then spinWrite (spinStop t) else t
    if strTruthy plan || strTruthy code then
      if t.spinner then t else spinStart (spinWrite t)
    else t
  | .artifact _ => displayArtifactSpin (spinStop t)
  | .complete _ => spinStop t
  | .error e =>
    let t := spinStop t
    if e != "" then spinWrite t else t

/-- The spinner/terminal trace of one whole `processQuery` call, starting from
an arbitrary inherited spinner flag: the reset stop and the
`Processing query` line, the per-chunk effects, the post-stream stop,
`displayFinalOutput`, and the two optional four-line summary blocks. -/
def processQuerySpin (sp0 : Bool) (chunks : List Chunk)
    (hasBetween hasLastTwo : Bool) : SpinTrace :=
  let t : SpinTrace := ⟨sp0, []⟩
  let t := spinWrite (spinStop t)
  let t := chunks.foldl handleChunkSpin t
  let t := spinStop t
  let t := displayFinalOutputSpin t
  let t := if hasBetween then spinWrite (spinWrite (spinWrite (spinWrite t))) else t
  if hasLastTwo then spinWrite (spinWrite (spinWrite (spinWrite t))) else t

/-- One parsed data row, keyed by the header row (`columns: true`). -/
def CsvRow : Type := List (String × String)

instance : DecidableEq CsvRow := by
  unfold CsvRow
  infer_instance

/-- `row.Key` on a parsed record: the value of the column of that name. -/
def lookupField (row : CsvRow) (key : String) : Option String :=
  (row.find? (fun p => p.1 == key)).map (fun p => p.2)

/-- Modelled from the spec: the vendor `csv-parse` stage with
`{ columns: true, trim: true }`, which is not part of this repository.  Per
the spec, rows are keyed by the header row and "trimming of field whitespace
is applied"; the model applies `trim()` to every field value of every data
row. -/
def csvParseTrim (rawRows : List CsvRow) : List CsvRow :=
  rawRows.map (fun row => row.map (fun p => (p.1, jsTrimStr p.2)))

/-- The repository's own `parseCsvFile` logic (source: `src/unnamed/part_001`,
lines 48-60): push `row.Question` for every parsed row whose `Question` field
is truthy, in row order. -/
def parseCsvFile (rows : List CsvRow) : List String :=
  rows.filterMap (fun row =>
    match lookupField row "Question" with
    | some q => if q == "" then none else some q
    | none => none)

/-- The specification's description of the extractor output: the trimmed
`Question` value of every raw data row whose trimmed `Question` field is
non-empty, in row order. -/
def questionColumnSpec (rawRows : List CsvRow) : List String :=
  rawRows.filterMap (fun row =>
    (lookupField row "Question").bind (fun v =>
      if jsTrimStr v == "" then none else some (jsTrimStr v)))

/-- Whether a raw row has a non-empty (after trimming) `Question` field. -/
def hasQuestion (row : CsvRow) : Bool :=
  match lookupField row "Question" with
  | some v => jsTrimStr v != ""
  | none => false

/-- How one question's stream ends: the vendor promise either rejects or
resolves after delivering a chunk sequence. -/
inductive StreamOutcome where
  | rejects (err : String)
  | resolves (chunks : List Chunk)
deriving DecidableEq

/-- The per-question result `processQuery` returns (variant of
`src/unnamed/part_001`). -/
structure QueryResult where
  question : String
  finalMessage : Option String
  betweenArtifactsMessage : Option String
  lastTwoSentencesMessage : Option String
deriving DecidableEq

/-- `processQuery` on a resolved stream: fold the chunks, then extract the
last two sentences of the accumulated text. -/
def processQueryModel (q : String) (chunks : List Chunk) : QueryResult :=
  let s := runFold chunks
  ⟨q, s.finalMessage, s.betweenArtifactsMessage,
    extractLastTwoSentences s.allStreamedText⟩

/-- The observable outcome of a run: which questions had their stream issued,
the results pushed, and whether the process exited through the catch
handler. -/
structure RunOutcome where
  issued : List String
  results : List QueryResult
  exited : Bool
deriving DecidableEq

/-- `main` of `src/unnamed/part_001`: the question loop sits in a `try` whose
`catch` logs and calls `process.exit(1)`, so the first rejected stream ends
the run; a resolved stream (whatever chunks it carried) lets the loop
continue. -/
def mainModel : List (String × StreamOutcome) → RunOutcome
  | [] => ⟨[], [], false⟩
  | (q, .rejects _) :: _ => ⟨[q], [], true⟩
  | (q, .resolves cs) :: rest =>
    let r := processQueryModel q cs
    let t := mainModel rest
    ⟨q :: t.issued, r :: t.results, t.exited⟩

/-- `main` of `src/unnamed/part_002`: the loop sits in an inner `try` whose
`catch` only logs, so the first rejected stream abandons the loop (skipping
the remaining questions) without exiting the process. -/
def mainModel2 : List (String × StreamOutcome) → RunOutcome
  | [] => ⟨[], [], false⟩
  | (q, .rejects _) :: _ => ⟨[q], [], false⟩
  | (q, .resolves cs) :: rest =>
    let r := processQueryModel q cs
    let t := mainModel2 rest
    ⟨q :: t.issued, r :: t.results, t.exited⟩

/-- Every write so far happened with the spinner stopped. -/
def AllFalse (t : SpinTrace) : Prop :=
  ∀ w ∈ t.writes, w = false

/-- The content of the `messageBetweenArtifacts` buffer after a chunk
sequence: the message texts since the last artifact, empty when no artifact
has occurred. -/
def betweenBufferSpec (l : List Chunk) : String :=
  match beforeArtifactRev l.reverse with
  | none => ""
  | some segRev => msgConcat segRev.reverse

/-- The message of the last `complete` chunk, `none` when no `complete`
chunk occurs (the fold cannot distinguish a missing `complete` from one
carrying `null`). -/
def lastCompleteMessage (l : List Chunk) : Option String :=
  (firstCompleteRev l.reverse).getD none

/-- Whether a chunk sequence contains an artifact chunk. -/
def hasArtifact (l : List Chunk) : Bool :=
  l.any isArtifactChunk

/-- Whether a chunk is a `complete` chunk. -/
def isCompleteChunk : Chunk → Bool
  | .complete _ => true
  | _ => false

/-- Tag every question's chunk list as a resolving stream. -/
def toResolves (qs : List (String × List Chunk)) : List (String × StreamOutcome) :=
  qs.map (fun p => (p.1, .resolves p.2))

/-- Every whitespace character of the list is a plain space. -/
def SpaceOnly (l : List Char) : Prop :=
  ∀ c ∈ l, isJsWs c = true → c = ' '

/-- No two adjacent whitespace characters. -/
def NoDouble (l : List Char) : Prop :=
  l.Chain' (fun a b => ¬(isJsWs a = true ∧ isJsWs b = true))

/-- No sentence-ending character directly followed by a space — the scan
would have split there. -/
def NoSplit (l : List Char) : Prop :=
  l.Chain' (fun a b => ¬(isPunct a = true ∧ b = ' '))

/-! ## Theorems -/

theorem lookupField_map_trim (row : CsvRow) (key : String) :
    lookupField (row.map (fun p => (p.1, jsTrimStr p.2))) key
      = (lookupField row key).map jsTrimStr := by
  induction row with
  | nil => rfl
  | cons p rest ih =>
    by_cases h : p.1 == key
    · simp [lookupField, List.find?, h]
    · simpa [lookupField, List.find?, h] using ih

theorem questionColumnSpec_length (raw : List CsvRow) :
    (questionColumnSpec raw).length = raw.countP hasQuestion := by
  induction raw with
  | nil => rfl
  | cons row rest ih =>
    unfold questionColumnSpec at ih ⊢
    simp only [beq_iff_eq] at ih
    cases h : lookupField row "Question" with
    | none =>
      simp [List.filterMap_cons, List.countP_cons, h, hasQuestion, ih]
    | some v =>
      by_cases hv : jsTrimStr v = ""
      · simp [List.filterMap_cons, List.countP_cons, h, hasQuestion, hv, ih]
      · simp [List.filterMap_cons, List.countP_cons, h, hasQuestion, hv, ih]

theorem parseCsvFile_eq_spec (raw : List CsvRow) :
    parseCsvFile (csvParseTrim raw) = questionColumnSpec raw := by
  induction raw with
  | nil => rfl
  | cons row rest ih =>
    unfold parseCsvFile csvParseTrim questionColumnSpec at ih ⊢
    simp only [List.map_cons, List.filterMap_cons, lookupField_map_trim]
    cases h : lookupField row "Question" with
    | none => simpa using ih
    | some v =>
      by_cases hv : jsTrimStr v = ""
      · simpa [hv] using ih
      · simpa [hv] using ih

/-- Claim C5: for every CSV input with a header row, `parseCsvFile` resolves
with exactly the sequence of whitespace-trimmed values of the column literally
named `Question`, in row order, one entry per data row whose `Question` field
is non-empty; rows lacking a non-empty `Question` field are silently skipped,
so the output length equals the number of such rows and order is
preserved.  The vendor `csv-parse` stage is `csvParseTrim`, modelled from the
spec; the row filter is the repository's own `parseCsvFile` logic. -/
theorem parseCsvFile_question_column (raw : List CsvRow) :
    parseCsvFile (csvParseTrim raw) = questionColumnSpec raw ∧
    (parseCsvFile (csvParseTrim raw)).length = raw.countP hasQuestion := by
  refine ⟨parseCsvFile_eq_spec raw, ?_⟩
  rw [parseCsvFile_eq_spec raw]
  exact questionColumnSpec_length raw

/-- Claim C9: every falsy cell value — not only a missing key or `undefined`,
but also the number 0, `false`, `null`, and the empty string — renders as the
empty string via `String(row[header] || '')`; in particular numeric 0
displays as empty, not as "0". -/
theorem renderCell_falsy_empty :
    (∀ v : JsVal, jsTruthy v = false → renderCell v = "") ∧
    renderCell (.vNum 0) = "" ∧ renderCell (.vBool false) = "" ∧
    renderCell .vNull = "" ∧ renderCell (.vStr "") = "" ∧
    renderCell (.vNum 5) = "5" ∧
    displayTableArtifact (some [some [("a", .vNum 0)]])
      = some (.grid ["a"] [[""]]) := by
  refine ⟨?_, by decide, by decide, by decide, by decide, by decide, by decide⟩
  intro v h
  simp [renderCell, h, jsToString]

/-- Witness for C9 at the concrete value 0. -/
theorem renderCell_falsy_empty_witness :
    jsTruthy (.vNum 0) = false ∧ renderCell (.vNum 0) = "" :=
  ⟨by decide, renderCell_falsy_empty.1 (.vNum 0) (by decide)⟩

/-- Claim C7: for a non-empty table payload the grid's header row is exactly
the keys of the first record in order, and a cell whose key is absent or
whose value is `undefined` renders as the empty string; a `null`, empty, or
first-record-missing payload degrades to the placeholder
"Empty table or invalid data" (returned, never thrown).  The input
`[{a:1,b:2},{a:3}]` yields header `["a","b"]` and an empty second-row `b`
cell. -/
theorem displayTableArtifact_spec :
    displayTableArtifact none = some (.placeholder ("Empty table or invalid data")) ∧
    displayTableArtifact (some []) = some (.placeholder ("Empty table or invalid data")) ∧
    (∀ t, displayTableArtifact (some (none :: t))
        = some (.placeholder ("Empty table or invalid data"))) ∧
    (∀ (first : TableRow) rest hd rows,
      displayTableArtifact (some (some first :: rest)) = some (.grid hd rows) →
      hd = first.map (fun p => p.1)) ∧
    (∀ (row : TableRow) h, row.find? (fun p => p.1 == h) = none → cellOf row h = "") ∧
    (∀ (row : TableRow) h, rowGet row h = .vUndefined → cellOf row h = "") ∧
    displayTableArtifact
        (some [some [("a", .vNum 1), ("b", .vNum 2)], some [("a", .vNum 3)]])
      = some (.grid ["a", "b"] [["1", "2"], ["3", ""]]) := by
  refine ⟨rfl, rfl, fun t => rfl, ?_, ?_, ?_, by decide⟩
  · intro first rest hd rows hEq
    have hEq' :
        ((some first :: rest).mapM (renderRow (first.map (fun p => p.1)))).map
            (TableRender.grid (first.map (fun p => p.1)))
          = some (.grid hd rows) := hEq
    cases hMap : (some first :: rest).mapM (renderRow (first.map (fun p => p.1))) with
    | none => rw [hMap] at hEq'; exact Option.noConfusion hEq'
    | some rws =>
      rw [hMap] at hEq'
      have h2 : TableRender.grid (first.map (fun p => p.1)) rws
          = TableRender.grid hd rows := Option.some.inj hEq'
      injection h2 with h3 h4
      exact h3.symm
  · intro row h hFind
    simp [cellOf, rowGet, hFind, renderCell, jsTruthy, jsToString]
  · intro row h hGet
    simp [cellOf, hGet, renderCell, jsTruthy, jsToString]

/-- Witness for C7 at a concrete one-column table. -/
theorem displayTableArtifact_spec_witness :
    (["a"] : List String) = [("a", JsVal.vNum 1)].map (fun p => p.1) ∧
    cellOf [] "missing" = "" :=
  ⟨displayTableArtifact_spec.2.2.2.1 [("a", JsVal.vNum 1)] [] ["a"] [["1"]] (by decide),
   displayTableArtifact_spec.2.2.2.2.1 [] "missing" (by decide)⟩

theorem allFalse_spinStop (t : SpinTrace) (h : AllFalse t) : AllFalse (spinStop t) := h

theorem allFalse_spinStart (t : SpinTrace) (h : AllFalse t) : AllFalse (spinStart t) := h

theorem allFalse_spinWrite (t : SpinTrace) (hs : t.spinner = false) (h : AllFalse t) :
    AllFalse (spinWrite t) := by
  intro w hw
  simp only [spinWrite] at hw
  rcases List.mem_append.mp hw with hOld | hNew
  · exact h w hOld
  · rw [List.mem_singleton.mp hNew, hs]

theorem spinner_spinWrite (t : SpinTrace) : (spinWrite t).spinner = t.spinner := rfl

theorem spinner_spinStop (t : SpinTrace) : (spinStop t).spinner = false := rfl

theorem allFalse_writeBlock (t : SpinTrace) (hs : t.spinner = false) (h : AllFalse t) :
    AllFalse (spinWrite (spinWrite (spinWrite (spinWrite t)))) := by
  have h1 := allFalse_spinWrite t hs h
  have hs1 : (spinWrite t).spinner = false := by rw [spinner_spinWrite]; exact hs
  have h2 := allFalse_spinWrite _ hs1 h1
  have hs2 : (spinWrite (spinWrite t)).spinner = false := by
    rw [spinner_spinWrite]; exact hs1
  have h3 := allFalse_spinWrite _ hs2 h2
  have hs3 : (spinWrite (spinWrite (spinWrite t))).spinner = false := by
    rw [spinner_spinWrite]; exact hs2
  exact allFalse_spinWrite _ hs3 h3

theorem allFalse_displayArtifactSpin (t : SpinTrace) (h : AllFalse t) :
    AllFalse (displayArtifactSpin t) :=
  allFalse_writeBlock (spinStop t) rfl (allFalse_spinStop t h)

theorem allFalse_displayFinalOutputSpin (t : SpinTrace) (h : AllFalse t) :
    AllFalse (displayFinalOutputSpin t) :=
  allFalse_writeBlock (spinStop t) rfl (allFalse_spinStop t h)

theorem allFalse_handleChunkSpin (t : SpinTrace) (c : Chunk) (h : AllFalse t) :
    AllFalse (handleChunkSpin t c) := by
  cases c with
  | message m =>
    dsimp only [handleChunkSpin]
    by_cases hm : strTruthy m
    · simp only [hm, if_true]
      exact allFalse_spinWrite _ rfl (allFalse_spinStop t h)
    · simp only [hm, if_false]
      exact allFalse_spinStop t h
  | action m p cd co ce =>
    dsimp only [handleChunkSpin]
    by_cases hm : strTruthy m
    · simp only [hm, if_true]
      by_cases hp : (strTruthy p || strTruthy cd) = true
      · simp only [hp, if_true, spinner_spinWrite, spinner_spinStop, if_false]
        apply allFalse_spinStart
        apply allFalse_spinWrite _ rfl
        exact allFalse_spinWrite _ rfl (allFalse_spinStop t h)
      · simp only [hp, if_false]
        exact allFalse_spinWrite _ rfl (allFalse_spinStop t h)
    · simp only [hm, Bool.false_eq_true, if_false]
      by_cases hp : (strTruthy p || strTruthy cd) = true
      · simp only [hp, if_true]
        by_cases hs : t.spinner = true
        · rw [if_pos hs]
          exact h
        · rw [if_neg hs]
          apply allFalse_spinStart
          exact allFalse_spinWrite _ (by simpa using hs) h
      · simp only [hp, if_false]
        exact h
  | artifact a =>
    exact allFalse_displayArtifactSpin _ (allFalse_spinStop t h)
  | complete m =>
    exact allFalse_spinStop t h
  | error e =>
    dsimp only [handleChunkSpin]
    by_cases he : (e != "") = true
    · simp only [he, if_true]
      exact allFalse_spinWrite _ rfl (allFalse_spinStop t h)
    · simp only [he, if_false]
      exact allFalse_spinStop t h

theorem allFalse_foldl (chunks : List Chunk) :
    ∀ t : SpinTrace, AllFalse t → AllFalse (chunks.foldl handleChunkSpin t) := by
  induction chunks with
  | nil => exact fun t h => h
  | cons c rest ih =>
    intro t h
    exact ih (handleChunkSpin t c) (allFalse_handleChunkSpin t c h)

/-- Claim C8: the spinner is never spinning at the moment any display action
writes to the terminal — the `Processing query` line, streaming-text writes,
artifact displays, error prints, the final-output display and the optional
summary blocks all record a stopped spinner, for every inherited spinner
state, every chunk sequence and every combination of summary blocks. -/
theorem spinner_never_spinning_at_write (sp0 : Bool) (chunks : List Chunk)
    (hasBetween hasLastTwo : Bool) :
    ∀ w ∈ (processQuerySpin sp0 chunks hasBetween hasLastTwo).writes, w = false := by
  unfold processQuerySpin
  have h0 : AllFalse (spinWrite (spinStop ⟨sp0, []⟩)) :=
    allFalse_spinWrite _ rfl (fun w hw => absurd hw (List.not_mem_nil w))
  have h1 := allFalse_foldl chunks _ h0
  have h2 := allFalse_displayFinalOutputSpin _ (allFalse_spinStop _ h1)
  have hsp : (displayFinalOutputSpin (spinStop (chunks.foldl handleChunkSpin
      (spinWrite (spinStop ⟨sp0, []⟩))))).spinner = false := rfl
  by_cases hb : hasBetween <;> by_cases hl : hasLastTwo <;>
    simp only [hb, hl, if_true, if_false] <;>
    first
      | exact allFalse_writeBlock _ (by simp [spinner_spinWrite, hsp])
          (allFalse_writeBlock _ hsp h2)
      | exact allFalse_writeBlock _ hsp h2
      | exact h2

/-- Witness for C8 at a concrete spinning start state and one message chunk. -/
theorem spinner_never_spinning_at_write_witness :
    (processQuerySpin true [Chunk.message (some ("hi"))] false false).writes.headD true
      = false :=
  spinner_never_spinning_at_write true [Chunk.message (some ("hi"))] false false _ (by decide)

theorem runFold_append_one (l : List Chunk) (c : Chunk) :
    runFold (l ++ [c]) = handleChunk (runFold l) c := by
  simp [runFold, List.foldl_append]

theorem msgConcat_append (l1 l2 : List Chunk) :
    msgConcat (l1 ++ l2) = msgConcat l1 ++ msgConcat l2 := by
  induction l1 with
  | nil => simp [msgConcat, String.empty_append]
  | cons c rest ih => simp [msgConcat, ih, String.append_assoc]

theorem countArtifacts_append (l1 l2 : List Chunk) :
    countArtifacts (l1 ++ l2) = countArtifacts l1 + countArtifacts l2 := by
  induction l1 with
  | nil => simp [countArtifacts]
  | cons c rest ih => simp [countArtifacts, ih]; omega

theorem erroredSpec_append (l1 l2 : List Chunk) :
    erroredSpec (l1 ++ l2) = erroredSpec l1 ++ erroredSpec l2 := by
  induction l1 with
  | nil => rfl
  | cons c rest ih =>
    cases c with
    | error e =>
      by_cases he : (e != "") = true
      · simp [erroredSpec, he, ih]
      · simp [erroredSpec, he, ih]
    | message m => simpa [erroredSpec] using ih
    | action m p cd co ce => simpa [erroredSpec] using ih
    | artifact a => simpa [erroredSpec] using ih
    | complete m => simpa [erroredSpec] using ih

theorem beforeArtifactRev_eq_none_iff (r : List Chunk) :
    beforeArtifactRev r = none ↔ hasArtifact r = false := by
  induction r with
  | nil => simp [beforeArtifactRev, hasArtifact]
  | cons c rest ih =>
    cases c with
    | artifact a => simp [beforeArtifactRev, hasArtifact, isArtifactChunk]
    | message m =>
      simp [beforeArtifactRev, hasArtifact, isArtifactChunk, Option.map_eq_none]
      simpa [hasArtifact] using ih
    | action m p cd co ce =>
      simp [beforeArtifactRev, hasArtifact, isArtifactChunk, Option.map_eq_none]
      simpa [hasArtifact] using ih
    | complete m =>
      simp [beforeArtifactRev, hasArtifact, isArtifactChunk, Option.map_eq_none]
      simpa [hasArtifact] using ih
    | error e =>
      simp [beforeArtifactRev, hasArtifact, isArtifactChunk, Option.map_eq_none]
      simpa [hasArtifact] using ih

theorem pastArtifactRev_eq_none_iff (r : List Chunk) :
    pastArtifactRev r = none ↔ hasArtifact r = false := by
  induction r with
  | nil => simp [pastArtifactRev, hasArtifact]
  | cons c rest ih =>
    cases c with
    | artifact a => simp [pastArtifactRev, hasArtifact, isArtifactChunk]
    | message m =>
      simp [pastArtifactRev, hasArtifact, isArtifactChunk]
      simpa [hasArtifact] using ih
    | action m p cd co ce =>
      simp [pastArtifactRev, hasArtifact, isArtifactChunk]
      simpa [hasArtifact] using ih
    | complete m =>
      simp [pastArtifactRev, hasArtifact, isArtifactChunk]
      simpa [hasArtifact] using ih
    | error e =>
      simp [pastArtifactRev, hasArtifact, isArtifactChunk]
      simpa [hasArtifact] using ih

theorem countArtifacts_eq_zero_iff (l : List Chunk) :
    countArtifacts l = 0 ↔ hasArtifact l = false := by
  induction l with
  | nil => simp [countArtifacts, hasArtifact]
  | cons c rest ih =>
    cases c with
    | artifact a => simp [countArtifacts, hasArtifact, isArtifactChunk]
    | message m =>
      simp [countArtifacts, hasArtifact, isArtifactChunk]
      simpa [hasArtifact] using ih
    | action m p cd co ce =>
      simp [countArtifacts, hasArtifact, isArtifactChunk]
      simpa [hasArtifact] using ih
    | complete m =>
      simp [countArtifacts, hasArtifact, isArtifactChunk]
      simpa [hasArtifact] using ih
    | error e =>
      simp [countArtifacts, hasArtifact, isArtifactChunk]
      simpa [hasArtifact] using ih

theorem hasArtifact_reverse (l : List Chunk) :
    hasArtifact l.reverse = hasArtifact l := by
  simp [hasArtifact]

theorem getD_of_not_truthy (m : Option String) (h : strTruthy m = false) :
    m.getD "" = "" := by
  cases m with
  | none => rfl
  | some t => simpa [strTruthy] using h

theorem append_truthy_case (x : String) (m : Option String) :
    (if strTruthy m then x ++ m.getD "" else x) = x ++ m.getD "" := by
  by_cases h : strTruthy m = true
  · rw [if_pos h]
  · rw [if_neg h, getD_of_not_truthy m (by simpa using h), String.append_empty]

theorem beforeArtifactRev_cons (c : Chunk) (r : List Chunk)
    (hc : isArtifactChunk c = false) :
    beforeArtifactRev (c :: r) = (beforeArtifactRev r).map (fun s => c :: s) := by
  cases c <;> simp_all [beforeArtifactRev, isArtifactChunk]

theorem pastArtifactRev_cons (c : Chunk) (r : List Chunk)
    (hc : isArtifactChunk c = false) :
    pastArtifactRev (c :: r) = pastArtifactRev r := by
  cases c <;> simp_all [pastArtifactRev, isArtifactChunk]

theorem firstCompleteRev_cons (c : Chunk) (r : List Chunk)
    (hc : isCompleteChunk c = false) :
    firstCompleteRev (c :: r) = firstCompleteRev r := by
  cases c <;> simp_all [firstCompleteRev, isCompleteChunk]

theorem reverse_snoc (l : List Chunk) (c : Chunk) :
    (l ++ [c]).reverse = c :: l.reverse := by
  simp

theorem msgConcat_snoc (l : List Chunk) (c : Chunk) :
    msgConcat (l ++ [c]) = msgConcat l ++ chunkText c := by
  rw [msgConcat_append]
  simp [msgConcat, String.append_empty]

theorem betweenBufferSpec_snoc (l : List Chunk) (c : Chunk)
    (hc : isArtifactChunk c = false) :
    betweenBufferSpec (l ++ [c]) =
      (match beforeArtifactRev l.reverse with
       | none => ""
       | some segRev => msgConcat segRev.reverse ++ chunkText c) := by
  unfold betweenBufferSpec
  rw [reverse_snoc, beforeArtifactRev_cons c l.reverse hc]
  cases h : beforeArtifactRev l.reverse with
  | none => rfl
  | some segRev =>
    simp only [Option.map]
    rw [List.reverse_cons, msgConcat_snoc]

theorem betweenBufferSpec_snoc_artifact (l : List Chunk) (a : Artifact) :
    betweenBufferSpec (l ++ [.artifact a]) = "" := by
  unfold betweenBufferSpec
  rw [reverse_snoc]
  rfl

theorem betweenLastTwoSpec_snoc (l : List Chunk) (c : Chunk)
    (hc : isArtifactChunk c = false) :
    betweenLastTwoSpec (l ++ [c]) = betweenLastTwoSpec l := by
  unfold betweenLastTwoSpec
  rw [reverse_snoc, pastArtifactRev_cons c l.reverse hc]

theorem betweenLastTwoSpec_snoc_artifact (l : List Chunk) (a : Artifact) :
    betweenLastTwoSpec (l ++ [.artifact a]) =
      (beforeArtifactRev l.reverse).map
        (fun segRev => jsTrimStr (msgConcat segRev.reverse)) := by
  unfold betweenLastTwoSpec
  rw [reverse_snoc]
  rfl

theorem lastCompleteMessage_snoc (l : List Chunk) (c : Chunk)
    (hc : isCompleteChunk c = false) :
    lastCompleteMessage (l ++ [c]) = lastCompleteMessage l := by
  unfold lastCompleteMessage
  rw [reverse_snoc, firstCompleteRev_cons c l.reverse hc]

theorem lastCompleteMessage_snoc_complete (l : List Chunk) (m : Option String) :
    lastCompleteMessage (l ++ [.complete m]) = m := by
  unfold lastCompleteMessage
  rw [reverse_snoc]
  rfl

theorem countArtifacts_snoc (l : List Chunk) (c : Chunk) :
    countArtifacts (l ++ [c]) =
      countArtifacts l + (if isArtifactChunk c then 1 else 0) := by
  rw [countArtifacts_append]
  simp [countArtifacts]

theorem beforeArtifactRev_none_iff_count (l : List Chunk) :
    beforeArtifactRev l.reverse = none ↔ countArtifacts l = 0 := by
  rw [beforeArtifactRev_eq_none_iff, hasArtifact_reverse, countArtifacts_eq_zero_iff]

theorem pastArtifactRev_none_iff_count (l : List Chunk) :
    pastArtifactRev l.reverse = none ↔ countArtifacts l = 0 := by
  rw [pastArtifactRev_eq_none_iff, hasArtifact_reverse, countArtifacts_eq_zero_iff]

theorem runFold_master (l : List Chunk) :
    (runFold l).artifactCount = countArtifacts l ∧
    (runFold l).allStreamedText = msgConcat l ∧
    (runFold l).messageBetweenArtifacts = betweenBufferSpec l ∧
    (runFold l).betweenArtifactsMessage = betweenLastTwoSpec l ∧
    (runFold l).finalMessage = lastCompleteMessage l ∧
    (runFold l).loggedErrors = erroredSpec l := by
  induction l using List.reverseRecOn with
  | nil => exact ⟨rfl, rfl, rfl, rfl, rfl, rfl⟩
  | append_singleton l c ih =>
    obtain ⟨ihC, ihT, ihB, ihW, ihF, ihE⟩ := ih
    rw [runFold_append_one]
    cases c with
    | message m =>
      refine ⟨?_, ?_, ?_, ?_, ?_, ?_⟩
      · simp only [handleChunk, countArtifacts_snoc, isArtifactChunk]
        simpa using ihC
      · simp only [handleChunk, msgConcat_snoc, append_truthy_case, chunkText]
        rw [ihT]
      · simp only [handleChunk]
        rw [betweenBufferSpec_snoc l (.message m) rfl, ihC, ihB]
        cases h : beforeArtifactRev l.reverse with
        | none =>
          have hz : countArtifacts l = 0 := (beforeArtifactRev_none_iff_count l).mp h
          rw [hz]
          simp only [gt_iff_lt, Nat.lt_irrefl, if_false]
          unfold betweenBufferSpec
          rw [h]
        | some segRev =>
          have hz : ¬ countArtifacts l = 0 := by
            intro h0
            rw [(beforeArtifactRev_none_iff_count l).mpr h0] at h
            exact Option.noConfusion h
          rw [if_pos (Nat.pos_of_ne_zero hz)]
          unfold betweenBufferSpec
          rw [h, chunkText]
      · simp only [handleChunk]
        rw [betweenLastTwoSpec_snoc l (.message m) rfl]
        exact ihW
      · simp only [handleChunk]
        rw [lastCompleteMessage_snoc l (.message m) rfl]
        exact ihF
      · simp only [handleChunk]
        rw [erroredSpec_append]
        simpa [erroredSpec] using ihE
    | action m p cd co ce =>
      by_cases hm : strTruthy m = true
      · refine ⟨?_, ?_, ?_, ?_, ?_, ?_⟩
        · simp only [handleChunk, hm, if_true, countArtifacts_snoc, isArtifactChunk]
          simpa using ihC
        · simp only [handleChunk, hm, if_true, msgConcat_snoc, chunkText]
          rw [ihT]
        · simp only [handleChunk, hm, if_true]
          rw [betweenBufferSpec_snoc l (.action m p cd co ce) rfl, ihC, ihB]
          cases h : beforeArtifactRev l.reverse with
          | none =>
            have hz : countArtifacts l = 0 := (beforeArtifactRev_none_iff_count l).mp h
            rw [hz]
            simp only [gt_iff_lt, Nat.lt_irrefl, if_false]
            unfold betweenBufferSpec
            rw [h]
          | some segRev =>
            have hz : ¬ countArtifacts l = 0 := by
              intro h0
              rw [(beforeArtifactRev_none_iff_count l).mpr h0] at h
              exact Option.noConfusion h
            rw [if_pos (Nat.pos_of_ne_zero hz)]
            unfold betweenBufferSpec
            rw [h, chunkText]
        · simp only [handleChunk, hm, if_true]
          rw [betweenLastTwoSpec_snoc l (.action m p cd co ce) rfl]
          exact ihW
        · simp only [handleChunk, hm, if_true]
          rw [lastCompleteMessage_snoc l (.action m p cd co ce) rfl]
          exact ihF
        · simp only [handleChunk, hm, if_true]
          rw [erroredSpec_append]
          simpa [erroredSpec] using ihE
      · have hgd : m.getD "" = "" := getD_of_not_truthy m (by simpa using hm)
        refine ⟨?_, ?_, ?_, ?_, ?_, ?_⟩
        · simp only [handleChunk]
          rw [if_neg hm, countArtifacts_snoc]
          simpa [isArtifactChunk] using ihC
        · simp only [handleChunk]
          rw [if_neg hm, msgConcat_snoc, chunkText, hgd, String.append_empty, ihT]
        · simp only [handleChunk]
          rw [if_neg hm, betweenBufferSpec_snoc l (.action m p cd co ce) rfl, ihB]
          cases h : beforeArtifactRev l.reverse with
          | none =>
            unfold betweenBufferSpec
            rw [h]
          | some segRev =>
            unfold betweenBufferSpec
            rw [h]
            simp [chunkText, hgd, String.append_empty]
        · simp only [handleChunk]
          rw [if_neg hm, betweenLastTwoSpec_snoc l (.action m p cd co ce) rfl]
          exact ihW
        · simp only [handleChunk]
          rw [if_neg hm, lastCompleteMessage_snoc l (.action m p cd co ce) rfl]
          exact ihF
        · simp only [handleChunk]
          rw [if_neg hm, erroredSpec_append]
          simpa [erroredSpec] using ihE
    | artifact a =>
      by_cases hz : countArtifacts l = 0
      · have hcond : ¬ (runFold l).artifactCount + 1 ≥ 2 := by
          rw [ihC, hz]
          omega
        refine ⟨?_, ?_, ?_, ?_, ?_, ?_⟩
        · simp only [handleChunk, if_neg hcond, countArtifacts_snoc, isArtifactChunk]
          simp [ihC]
        · simp only [handleChunk, if_neg hcond, msgConcat_snoc, chunkText]
          rw [String.append_empty, ihT]
        · simp only [handleChunk, if_neg hcond]
          rw [betweenBufferSpec_snoc_artifact, ihB]
          unfold betweenBufferSpec
          rw [(beforeArtifactRev_none_iff_count l).mpr hz]
        · simp only [handleChunk, if_neg hcond]
          rw [betweenLastTwoSpec_snoc_artifact, (beforeArtifactRev_none_iff_count l).mpr hz,
            ihW]
          unfold betweenLastTwoSpec
          rw [(pastArtifactRev_none_iff_count l).mpr hz]
          rfl
        · simp only [handleChunk, if_neg hcond]
          rw [lastCompleteMessage_snoc l (.artifact a) rfl]
          exact ihF
        · simp only [handleChunk, if_neg hcond]
          rw [erroredSpec_append]
          simpa [erroredSpec] using ihE
      · have hcond : (runFold l).artifactCount + 1 ≥ 2 := by
          rw [ihC]
          omega
        refine ⟨?_, ?_, ?_, ?_, ?_, ?_⟩
        · simp only [handleChunk, if_pos hcond, countArtifacts_snoc, isArtifactChunk]
          simp [ihC]
        · simp only [handleChunk, if_pos hcond, msgConcat_snoc, chunkText]
          rw [String.append_empty, ihT]
        · simp only [handleChunk, if_pos hcond]
          rw [betweenBufferSpec_snoc_artifact]
        · simp only [handleChunk, if_pos hcond]
          rw [betweenLastTwoSpec_snoc_artifact, ihB]
          cases h : beforeArtifactRev l.reverse with
          | none =>
            exact absurd ((beforeArtifactRev_none_iff_count l).mp h) hz
          | some segRev =>
            unfold betweenBufferSpec
            rw [h]
            rfl
        · simp only [handleChunk, if_pos hcond]
          rw [lastCompleteMessage_snoc l (.artifact a) rfl]
          exact ihF
        · simp only [handleChunk, if_pos hcond]
          rw [erroredSpec_append]
          simpa [erroredSpec] using ihE
    | complete m =>
      refine ⟨?_, ?_, ?_, ?_, ?_, ?_⟩
      · simp only [handleChunk, countArtifacts_snoc, isArtifactChunk]
        simpa using ihC
      · simp only [handleChunk, msgConcat_snoc, chunkText]
        rw [String.append_empty, ihT]
      · simp only [handleChunk]
        rw [betweenBufferSpec_snoc l (.complete m) rfl, ihB]
        cases h : beforeArtifactRev l.reverse with
        | none =>
          unfold betweenBufferSpec
          rw [h]
        | some segRev =>
          unfold betweenBufferSpec
          rw [h]
          simp [chunkText, String.append_empty]
      · simp only [handleChunk]
        rw [betweenLastTwoSpec_snoc l (.complete m) rfl]
        exact ihW
      · simp only [handleChunk]
        rw [lastCompleteMessage_snoc_complete]
      · simp only [handleChunk]
        rw [erroredSpec_append]
        simpa [erroredSpec] using ihE
    | error e =>
      by_cases he : (e != "") = true
      · refine ⟨?_, ?_, ?_, ?_, ?_, ?_⟩
        · simp only [handleChunk]
          rw [if_pos he, countArtifacts_snoc]
          simpa [isArtifactChunk] using ihC
        · simp only [handleChunk]
          rw [if_pos he, msgConcat_snoc]
          simp [chunkText, String.append_empty, ihT]
        · simp only [handleChunk]
          rw [if_pos he, betweenBufferSpec_snoc l (.error e) rfl, ihB]
          cases h : beforeArtifactRev l.reverse with
          | none =>
            unfold betweenBufferSpec
            rw [h]
          | some segRev =>
            unfold betweenBufferSpec
            rw [h]
            simp [chunkText, String.append_empty]
        · simp only [handleChunk]
          rw [if_pos he, betweenLastTwoSpec_snoc l (.error e) rfl]
          exact ihW
        · simp only [handleChunk]
          rw [if_pos he, lastCompleteMessage_snoc l (.error e) rfl]
          exact ihF
        · simp only [handleChunk]
          rw [if_pos he, erroredSpec_append, ihE]
          simp [erroredSpec, he]
      · refine ⟨?_, ?_, ?_, ?_, ?_, ?_⟩
        · simp only [handleChunk]
          rw [if_neg he, countArtifacts_snoc]
          simpa [isArtifactChunk] using ihC
        · simp only [handleChunk]
          rw [if_neg he, msgConcat_snoc]
          simp [chunkText, String.append_empty, ihT]
        · simp only [handleChunk]
          rw [if_neg he, betweenBufferSpec_snoc l (.error e) rfl, ihB]
          cases h : beforeArtifactRev l.reverse with
          | none =>
            unfold betweenBufferSpec
            rw [h]
          | some segRev =>
            unfold betweenBufferSpec
            rw [h]
            simp [chunkText, String.append_empty]
        · simp only [handleChunk]
          rw [if_neg he, betweenLastTwoSpec_snoc l (.error e) rfl]
          exact ihW
        · simp only [handleChunk]
          rw [if_neg he, lastCompleteMessage_snoc l (.error e) rfl]
          exact ihF
        · simp only [handleChunk]
          rw [if_neg he, erroredSpec_append, ihE]
          simp [erroredSpec, he]

theorem countArtifacts_reverse (l : List Chunk) :
    countArtifacts l.reverse = countArtifacts l := by
  induction l with
  | nil => rfl
  | cons c rest ih =>
    rw [List.reverse_cons, countArtifacts_append, ih]
    simp [countArtifacts]
    omega

theorem pastArtifactRev_count (r rest : List Chunk)
    (h : pastArtifactRev r = some rest) :
    countArtifacts r = countArtifacts rest + 1 := by
  induction r generalizing rest with
  | nil => exact Option.noConfusion h
  | cons c r' ih =>
    cases c with
    | artifact a =>
      simp only [pastArtifactRev, Option.some.injEq] at h
      subst h
      simp [countArtifacts, isArtifactChunk]
      omega
    | message m =>
      simp only [pastArtifactRev] at h
      simpa [countArtifacts, isArtifactChunk] using ih rest h
    | action m p cd co ce =>
      simp only [pastArtifactRev] at h
      simpa [countArtifacts, isArtifactChunk] using ih rest h
    | complete m =>
      simp only [pastArtifactRev] at h
      simpa [countArtifacts, isArtifactChunk] using ih rest h
    | error e =>
      simp only [pastArtifactRev] at h
      simpa [countArtifacts, isArtifactChunk] using ih rest h

theorem betweenLastTwoSpec_none_iff (l : List Chunk) :
    betweenLastTwoSpec l = none ↔ countArtifacts l < 2 := by
  unfold betweenLastTwoSpec
  cases hp : pastArtifactRev l.reverse with
  | none =>
    have hz : countArtifacts l = 0 := (pastArtifactRev_none_iff_count l).mp hp
    simp [Option.bind, hz]
  | some rest =>
    have hcount : countArtifacts l = countArtifacts rest + 1 := by
      rw [← countArtifacts_reverse l]
      exact pastArtifactRev_count l.reverse rest hp
    cases hb : beforeArtifactRev rest with
    | none =>
      have hz : countArtifacts rest = 0 := by
        rw [countArtifacts_eq_zero_iff]
        exact (beforeArtifactRev_eq_none_iff rest).mp hb
      simp only [Option.bind, hb, Option.map_none, hcount, hz]
      simp
    | some seg =>
      have hz : ¬ countArtifacts rest = 0 := by
        intro h0
        rw [(beforeArtifactRev_eq_none_iff rest).mpr
          ((countArtifacts_eq_zero_iff rest).mp h0)] at hb
        exact Option.noConfusion hb
      simp only [Option.bind, hb, Option.map_some, hcount]
      constructor
      · intro h
        exact Option.noConfusion h
      · intro h
        omega

/-- Claim C1: for every per-question chunk stream, the returned
`betweenArtifactsMessage` equals the trimmed concatenation, in arrival order,
of the message texts of message/action chunks that arrived strictly between
the second-to-last and the last artifact chunk, and it is `none` exactly when
fewer than two artifact chunks arrived. -/
theorem betweenArtifactsMessage_correct (l : List Chunk) :
    (runFold l).betweenArtifactsMessage = betweenLastTwoSpec l ∧
    ((runFold l).betweenArtifactsMessage = none ↔ countArtifacts l < 2) := by
  refine ⟨(runFold_master l).2.2.2.1, ?_⟩
  rw [(runFold_master l).2.2.2.1]
  exact betweenLastTwoSpec_none_iff l

/-- Claim C2: for every per-question chunk sequence ending in the stream's
completion signal, the accumulated `allStreamedText` buffer equals the
concatenation, in arrival order, of every non-null message text carried by
message and action chunks (other fields contribute nothing). -/
theorem allStreamedText_correct (l : List Chunk) (m : Option String) :
    (runFold (l ++ [Chunk.complete m])).allStreamedText
      = msgConcat (l ++ [Chunk.complete m]) :=
  (runFold_master (l ++ [Chunk.complete m])).2.1

theorem firstCompleteRev_append_complete (x y : List Chunk) (m : Option String) :
    firstCompleteRev (x ++ .complete m :: y) = some ((firstCompleteRev x).getD m) := by
  induction x with
  | nil => rfl
  | cons c rest ih =>
    cases c with
    | complete m2 => rfl
    | message m2 => simpa [firstCompleteRev] using ih
    | action m2 p cd co ce => simpa [firstCompleteRev] using ih
    | artifact a => simpa [firstCompleteRev] using ih
    | error e => simpa [firstCompleteRev] using ih

/-- Claim C10: the fold does not stop consuming chunks after a `complete`
chunk — text after a `complete` is still appended, artifacts after it are
still counted, the returned `finalMessage` is the message of the last
`complete` chunk (overwriting earlier ones), and it is `none` when no
`complete` chunk arrives. -/
theorem fold_continues_after_complete (l1 l2 : List Chunk) (m : Option String) :
    (runFold (l1 ++ Chunk.complete m :: l2)).allStreamedText
        = msgConcat l1 ++ msgConcat l2 ∧
    (runFold (l1 ++ Chunk.complete m :: l2)).artifactCount
        = countArtifacts l1 + countArtifacts l2 ∧
    (runFold (l1 ++ Chunk.complete m :: l2)).finalMessage
        = (match firstCompleteRev l2.reverse with
           | some mm => mm
           | none => m) ∧
    (∀ l : List Chunk, (runFold l).finalMessage =
      (match firstCompleteRev l.reverse with
       | some mm => mm
       | none => none)) := by
  refine ⟨?_, ?_, ?_, ?_⟩
  · rw [(runFold_master _).2.1, msgConcat_append]
    simp [msgConcat, chunkText, String.empty_append]
  · rw [(runFold_master _).1, countArtifacts_append]
    simp [countArtifacts, isArtifactChunk]
  · rw [(runFold_master _).2.2.2.2.1]
    unfold lastCompleteMessage
    have hrev : (l1 ++ Chunk.complete m :: l2).reverse
        = l2.reverse ++ Chunk.complete m :: l1.reverse := by
      simp
    rw [hrev, firstCompleteRev_append_complete]
    cases h : firstCompleteRev l2.reverse with
    | none => simp [h]
    | some mm => simp [h]
  · intro l
    rw [(runFold_master l).2.2.2.2.1]
    unfold lastCompleteMessage
    cases h : firstCompleteRev l.reverse with
    | none => simp
    | some mm => simp

/-- Counterexample to claim C4 as stated: with a first stream whose promise
rejects and a second question pending, the `main` of `src/unnamed/part_001`
exits the process (the rejection reaches the outer catch, which calls
`process.exit(1)`) and the second question's stream is never issued; the
`main` of `src/unnamed/part_002` also abandons the loop before the second
question (its catch sits outside the `for` loop), though without exiting. -/
theorem main_stops_on_rejected_stream :
    (mainModel [("q1", StreamOutcome.rejects "boom"),
                ("q2", StreamOutcome.resolves [Chunk.complete (some "ok")])]).exited
        = true ∧
    (mainModel [("q1", StreamOutcome.rejects "boom"),
                ("q2", StreamOutcome.resolves [Chunk.complete (some "ok")])]).issued
        = ["q1"] ∧
    (mainModel2 [("q1", StreamOutcome.rejects "boom"),
                 ("q2", StreamOutcome.resolves [Chunk.complete (some "ok")])]).issued
        = ["q1"] :=
  ⟨rfl, rfl, rfl⟩

/-- Claim C4 as amended: an `error_chunk` does not break the run — when every
stream promise resolves, every question's stream is issued, in order, the
process does not exit, and each question contributes its fold result; every
non-empty `error_chunk` error is logged.  A rejected stream promise, by
contrast, escapes the per-question boundary: the questions after it are never
issued and the `part_001` variant exits the process (the `part_002` variant
abandons the loop without exiting). -/
theorem main_error_handling :
    (∀ qs : List (String × List Chunk),
      (mainModel (toResolves qs)).issued = qs.map Prod.fst ∧
      (mainModel (toResolves qs)).exited = false ∧
      (mainModel (toResolves qs)).results
        = qs.map (fun p => processQueryModel p.1 p.2)) ∧
    (∀ cs : List Chunk, (runFold cs).loggedErrors = erroredSpec cs) ∧
    (∀ (pre : List (String × List Chunk)) (q e : String)
        (post : List (String × StreamOutcome)),
      (mainModel (toResolves pre ++ (q, .rejects e) :: post)).issued
          = pre.map Prod.fst ++ [q] ∧
      (mainModel (toResolves pre ++ (q, .rejects e) :: post)).exited = true ∧
      (mainModel2 (toResolves pre ++ (q, .rejects e) :: post)).issued
          = pre.map Prod.fst ++ [q] ∧
      (mainModel2 (toResolves pre ++ (q, .rejects e) :: post)).exited = false) := by
  refine ⟨?_, ?_, ?_⟩
  · intro qs
    induction qs with
    | nil => exact ⟨rfl, rfl, rfl⟩
    | cons p rest ih =>
      obtain ⟨ih1, ih2, ih3⟩ := ih
      refine ⟨?_, ?_, ?_⟩
      · simp only [toResolves, List.map_cons, mainModel] at ih1 ⊢
        rw [ih1]
      · simp only [toResolves, List.map_cons, mainModel] at ih2 ⊢
        rw [ih2]
      · simp only [toResolves, List.map_cons, mainModel] at ih3 ⊢
        rw [ih3]
  · intro cs
    exact (runFold_master cs).2.2.2.2.2
  · intro pre q e post
    induction pre with
    | nil => exact ⟨rfl, rfl, rfl, rfl⟩
    | cons p rest ih =>
      obtain ⟨ih1, ih2, ih3, ih4⟩ := ih
      refine ⟨?_, ?_, ?_, ?_⟩
      · simp only [toResolves, List.map_cons, List.cons_append, mainModel,
          List.append_eq] at ih1 ⊢
        rw [ih1]
      · simp only [toResolves, List.map_cons, List.cons_append, mainModel,
          List.append_eq] at ih2 ⊢
        rw [ih2]
      · simp only [toResolves, List.map_cons, List.cons_append, mainModel2,
          List.append_eq] at ih3 ⊢
        rw [ih3]
      · simp only [toResolves, List.map_cons, List.cons_append, mainModel2,
          List.append_eq] at ih4 ⊢
        rw [ih4]

theorem punct_not_ws (c : Char) (h : isPunct c = true) : isJsWs c = false := by
  have h3 : (c = '.' ∨ c = '!') ∨ c = '?' := by
    simpa [isPunct] using h
  rcases h3 with (h3 | h3) | h3 <;> subst h3 <;> decide

theorem mem_of_getLast?_eq {l : List Char} {c : Char} (h : l.getLast? = some c) :
    c ∈ l := by
  rw [← List.head?_reverse] at h
  exact List.mem_reverse.mp (List.mem_of_mem_head? h)

theorem head_dropWhile_not_ws (l : List Char) (c : Char)
    (h : (l.dropWhile isJsWs).head? = some c) : isJsWs c = false := by
  induction l with
  | nil => exact Option.noConfusion h
  | cons a t ih =>
    rw [List.dropWhile_cons] at h
    by_cases ha : isJsWs a
    · rw [if_pos ha] at h
      exact ih h
    · rw [if_neg ha] at h
      cases h
      simpa using ha

theorem dropWhile_eq_self_of_head (l : List Char) (c : Char)
    (hh : l.head? = some c) (hw : isJsWs c = false) :
    l.dropWhile isJsWs = l := by
  cases l with
  | nil => rfl
  | cons a t =>
    cases hh
    rw [List.dropWhile_cons, if_neg (by simp [hw])]

theorem trimList_eq_dropWhile (l : List Char) (c : Char)
    (hc : l.getLast? = some c) (hw : isJsWs c = false) :
    trimList l = l.dropWhile isJsWs ∧ (trimList l).getLast? = some c := by
  have hd_ne : l.dropWhile isJsWs ≠ [] := by
    intro h0
    have hall := List.dropWhile_eq_nil_iff.mp h0
    have hcl := hall c (mem_of_getLast?_eq hc)
    rw [hw] at hcl
    exact Bool.noConfusion hcl
  obtain ⟨t, ht⟩ := List.dropWhile_suffix (l := l) isJsWs
  have hlast_d : (l.dropWhile isJsWs).getLast? = some c := by
    rw [← ht] at hc
    rwa [List.getLast?_append_of_ne_nil t hd_ne] at hc
  have hhead_rev : (l.dropWhile isJsWs).reverse.head? = some c := by
    rw [List.head?_reverse]
    exact hlast_d
  have hfix : (l.dropWhile isJsWs).reverse.dropWhile isJsWs
      = (l.dropWhile isJsWs).reverse :=
    dropWhile_eq_self_of_head _ c hhead_rev hw
  constructor
  · unfold trimList
    rw [hfix, List.reverse_reverse]
  · unfold trimList
    rw [hfix, List.reverse_reverse]
    exact hlast_d

theorem trimList_ne_nil_of_last (l : List Char) (c : Char)
    (hc : l.getLast? = some c) (hw : isJsWs c = false) :
    trimList l ≠ [] := by
  intro h0
  have := (trimList_eq_dropWhile l c hc hw).2
  rw [h0] at this
  exact Option.noConfusion this

theorem head_trimList_not_ws (l : List Char) (c : Char)
    (h : (trimList l).head? = some c) : isJsWs c = false := by
  unfold trimList at h
  rw [List.head?_reverse] at h
  obtain ⟨t, ht⟩ := List.dropWhile_suffix (l := (l.dropWhile isJsWs).reverse) isJsWs
  have hY_ne : (l.dropWhile isJsWs).reverse.dropWhile isJsWs ≠ [] := by
    intro h0
    rw [h0] at h
    exact Option.noConfusion h
  have : (l.dropWhile isJsWs).reverse.getLast? = some c := by
    rw [← ht, List.getLast?_append_of_ne_nil t hY_ne]
    exact h
  rw [List.getLast?_reverse] at this
  exact head_dropWhile_not_ws l c this

theorem last_trimList_not_ws (l : List Char) (c : Char)
    (h : (trimList l).getLast? = some c) : isJsWs c = false := by
  unfold trimList at h
  rw [List.getLast?_reverse] at h
  exact head_dropWhile_not_ws _ c h

theorem trimList_eq_self (l : List Char)
    (h1 : ∀ c, l.head? = some c → isJsWs c = false)
    (h2 : ∀ c, l.getLast? = some c → isJsWs c = false) :
    trimList l = l := by
  cases hl : l with
  | nil => rfl
  | cons a t =>
    have hhead : l.head? = some a := by rw [hl]; rfl
    have hlast : ∃ c, l.getLast? = some c := by
      rw [hl]
      exact ⟨(a :: t).getLast (by simp), List.getLast?_eq_getLast _ _⟩
    obtain ⟨c, hc⟩ := hlast
    rw [← hl]
    rw [(trimList_eq_dropWhile l c hc (h2 c hc)).1]
    exact dropWhile_eq_self_of_head l a (by rw [hl]; rfl) (h1 a (by rw [hl]; rfl))

theorem trimList_idem (l : List Char) : trimList (trimList l) = trimList l := by
  cases h : trimList l with
  | nil => rfl
  | cons a t =>
    rw [← h]
    exact trimList_eq_self (trimList l)
      (fun c hc => head_trimList_not_ws l c hc)
      (fun c hc => last_trimList_not_ws l c hc)

theorem trimList_is_infix (l : List Char) :
    ∃ p q, l = p ++ trimList l ++ q := by
  obtain ⟨t1, ht1⟩ := List.dropWhile_suffix (l := l) isJsWs
  obtain ⟨t2, ht2⟩ := List.dropWhile_suffix (l := (l.dropWhile isJsWs).reverse) isJsWs
  refine ⟨t1, t2.reverse, ?_⟩
  have hrev := congrArg List.reverse ht2
  rw [List.reverse_append, List.reverse_reverse] at hrev
  have hd : l.dropWhile isJsWs = trimList l ++ t2.reverse := by
    unfold trimList
    exact hrev.symm
  have hfin : t1 ++ (trimList l ++ t2.reverse) = l := by
    rw [← hd]
    exact ht1
  rw [List.append_assoc]
  exact hfin.symm

theorem mem_trimList (l : List Char) (x : Char) (h : x ∈ trimList l) : x ∈ l := by
  obtain ⟨p, q, hpq⟩ := trimList_is_infix l
  rw [hpq]
  simp [h]

theorem trimList_cons_space (b : List Char) : trimList (' ' :: b) = trimList b := by
  unfold trimList
  rw [List.dropWhile_cons, if_pos (by decide)]

theorem scanAux_mem_ne_nil (input : List Char) :
    ∀ (acc : List Char) (s : List Char), s ∈ scanAux acc input → s ≠ [] := by
  induction input with
  | nil =>
    intro acc s hs
    unfold scanAux at hs
    by_cases he : (trimList acc).isEmpty = true
    · rw [if_pos he] at hs
      exact absurd hs (List.not_mem_nil s)
    · rw [if_neg he] at hs
      rw [List.mem_singleton.mp hs]
      intro h0
      exact he (by rw [h0]; rfl)
  | cons c rest ih =>
    intro acc s hs
    unfold scanAux at hs
    by_cases hcond : (isPunct c && (rest.isEmpty || rest.head? == some ' ')) = true
    · rw [if_pos hcond] at hs
      rcases List.mem_cons.mp hs with hs | hs
      · have hpunct : isPunct c = true := ((Bool.and_eq_true _ _).mp hcond).1
        rw [hs]
        exact trimList_ne_nil_of_last (acc ++ [c]) c (List.getLast?_concat acc)
          (punct_not_ws c hpunct)
      · exact ih [] s hs
    · rw [if_neg hcond] at hs
      exact ih (acc ++ [c]) s hs

theorem extractCore_eq_lastTwoPerSpec (l : List Char) :
    extractCore l = lastTwoPerSpec (scanAux [] (cleanedText l)) := by
  unfold extractCore
  by_cases hg : (trimList l).isEmpty = true
  · rw [if_pos hg]
    have ht : trimList l = [] := List.isEmpty_iff.mp hg
    unfold cleanedText
    rw [ht]
    rfl
  · rw [if_neg hg]
    unfold lastTwoPerSpec
    cases hrev : (scanAux [] (cleanedText l)).reverse with
    | nil => rfl
    | cons b tail =>
      cases tail with
      | nil =>
        have hmem : b ∈ scanAux [] (cleanedText l) := by
          have : b ∈ (scanAux [] (cleanedText l)).reverse := by
            rw [hrev]
            exact List.mem_singleton.mpr rfl
          exact List.mem_reverse.mp this
        have hne : b ≠ [] := scanAux_mem_ne_nil (cleanedText l) [] b hmem
        have hbe : b.isEmpty = false := by
          cases b with
          | nil => exact absurd rfl hne
          | cons x xs => rfl
        show (if b.isEmpty = true then (none : Option (List Char)) else some b) = some b
        simp [hbe]
      | cons a tail2 => rfl

/-- Claim C3: `extractLastTwoSentences` is a pure function computing, over the
cleaned text (trim, strip `<artifact ... />` markers, collapse whitespace) and
the character scan that ends a segment after `.`, `!` or `?` at end-of-string
or before a space (keeping a non-empty leftover), the last two segments
joined by one space — the last alone if exactly one exists, `none` if none —
with the claim's concrete examples: `"A. B. C."` gives `"B. C."`,
`"Pi is 3.14 today."` stays whole (the embedded decimal point does not
split), and `""` gives `none`. -/
theorem extractLastTwoSentences_spec :
    extractLastTwoSentences ("A. B. C.") = some ("B. C.") ∧
    extractLastTwoSentences ("Pi is 3.14 today.") = some ("Pi is 3.14 today.") ∧
    extractLastTwoSentences ("") = none ∧
    ∀ text : String,
      extractLastTwoSentences text
        = (lastTwoPerSpec (scanAux [] (cleanedText text.data))).map String.mk := by
  refine ⟨by decide, by decide, by decide, ?_⟩
  intro text
  unfold extractLastTwoSentences
  rw [extractCore_eq_lastTwoPerSpec]

/-- Counterexample to claim C6 as stated: for
`x = "<artifact\nxx/>. Done."` the extraction returns
`"<artifact xx/>. Done."` — non-null and ending in `'.'` — because the
newline stops the regex `.` so the marker is not stripped, but whitespace
collapsing then turns the newline into a space; re-extracting strips the now
well-formed marker and yields `". Done."`, so `extract (extract x)` differs
from `extract x`. -/
theorem extract_not_idempotent :
    extractLastTwoSentences ("<artifact\nxx/>. Done.")
        = some ("<artifact xx/>. Done.") ∧
    ("<artifact xx/>. Done.").data.getLast? = some '.' ∧
    isPunct '.' = true ∧
    extractLastTwoSentences ("<artifact xx/>. Done.") = some (". Done.") ∧
    (". Done." : String) ≠ ("<artifact xx/>. Done.") :=
  ⟨by decide, by decide, by decide, by decide, by decide⟩

theorem collapse_spaceOnly (l : List Char) :
    ∀ b : Bool, SpaceOnly (collapseWsAux b l) := by
  induction l with
  | nil =>
    intro b c hc
    exact absurd hc (List.not_mem_nil c)
  | cons c rest ih =>
    intro b x hx hwx
    unfold collapseWsAux at hx
    by_cases hc : isJsWs c = true
    · rw [if_pos hc] at hx
      cases b with
      | true => exact ih true x hx hwx
      | false =>
        rcases List.mem_cons.mp hx with hx | hx
        · exact hx
        · exact ih true x hx hwx
    · rw [if_neg hc] at hx
      rcases List.mem_cons.mp hx with hx | hx
      · rw [hx] at hwx
        exact absurd hwx hc
      · exact ih false x hx hwx

theorem collapse_head_true (l : List Char) :
    ∀ c, (collapseWsAux true l).head? = some c → isJsWs c = false := by
  induction l with
  | nil => exact fun c h => Option.noConfusion h
  | cons a rest ih =>
    intro c h
    unfold collapseWsAux at h
    by_cases ha : isJsWs a = true
    · rw [if_pos ha] at h
      exact ih c h
    · rw [if_neg ha] at h
      cases h
      simpa using ha

theorem collapse_noDouble (l : List Char) :
    ∀ b : Bool, NoDouble (collapseWsAux b l) := by
  induction l with
  | nil =>
    intro b
    exact List.chain'_nil
  | cons c rest ih =>
    intro b
    unfold collapseWsAux
    by_cases hc : isJsWs c = true
    · rw [if_pos hc]
      cases b with
      | true => exact ih true
      | false =>
        refine List.chain'_cons'.mpr ⟨?_, ih true⟩
        intro y hy
        intro ⟨_, hwy⟩
        rw [collapse_head_true rest y hy] at hwy
        exact Bool.noConfusion hwy
    · rw [if_neg hc]
      refine List.chain'_cons'.mpr ⟨?_, ih false⟩
      intro y hy
      intro ⟨hwc, _⟩
      exact hc hwc

theorem collapse_id (l : List Char) :
    ∀ b : Bool, SpaceOnly l → NoDouble l →
      (b = true → ∀ c, l.head? = some c → isJsWs c = false) →
      collapseWsAux b l = l := by
  induction l with
  | nil => intro b _ _ _; rfl
  | cons c rest ih =>
    intro b hso hnd hb
    have hso' : SpaceOnly rest := fun x hx => hso x (List.mem_cons_of_mem c hx)
    have hnd' : NoDouble rest := (List.chain'_cons'.mp hnd).2
    unfold collapseWsAux
    cases b with
    | true =>
      have hc : isJsWs c = false := hb rfl c rfl
      rw [if_neg (by simp [hc])]
      rw [ih false hso' hnd' (fun h => Bool.noConfusion h)]
    | false =>
      by_cases hc : isJsWs c = true
      · rw [if_pos hc]
        have hcsp : c = ' ' := hso c (List.mem_cons_self c rest) hc
        have hhead : ∀ x, rest.head? = some x → isJsWs x = false := by
          intro x hx
          have hpair := (List.chain'_cons'.mp hnd).1 x hx
          by_cases hwx : isJsWs x = true
          · exact absurd ⟨hc, hwx⟩ hpair
          · simpa using hwx
        rw [ih true hso' hnd' (fun _ => hhead), hcsp]
        simp
      · rw [if_neg hc]
        rw [ih false hso' hnd' (fun h => Bool.noConfusion h)]

theorem scanAux_nil (acc : List Char) :
    scanAux acc [] = if (trimList acc).isEmpty then [] else [trimList acc] := rfl

theorem scanAux_cons (acc : List Char) (c : Char) (rest : List Char) :
    scanAux acc (c :: rest) =
      if isPunct c && (rest.isEmpty || rest.head? == some ' ') then
        trimList (acc ++ [c]) :: scanAux [] rest
      else scanAux (acc ++ [c]) rest := rfl

theorem scanAux_consume (input : List Char) :
    ∀ (acc : List Char) (c : Char), input.getLast? = some c → isPunct c = true →
      NoSplit input → scanAux acc input = [trimList (acc ++ input)] := by
  induction input with
  | nil => exact fun acc c h _ _ => Option.noConfusion h
  | cons x rest ih =>
    intro acc c hlast hpunct hns
    cases rest with
    | nil =>
      have hx : x = c := by
        have hx1 : ([x] : List Char).getLast? = some x := rfl
        rw [hx1] at hlast
        exact Option.some.inj hlast
      subst hx
      unfold scanAux
      rw [if_pos (by simp [hpunct])]
      rfl
    | cons y rest' =>
      have hpair := (List.chain'_cons'.mp hns).1 y rfl
      have hns' : NoSplit (y :: rest') := (List.chain'_cons'.mp hns).2
      have hlast' : (y :: rest').getLast? = some c := by
        rw [List.getLast?_cons_cons] at hlast
        exact hlast
      have hcond : (isPunct x && ((y :: rest').isEmpty || (y :: rest').head? == some ' '))
          = false := by
        by_cases hx : isPunct x = true
        · have hy : y ≠ ' ' := fun hy => hpair ⟨hx, hy⟩
          simp [hx, hy]
        · simp [Bool.eq_false_iff.mpr hx]
      unfold scanAux
      rw [if_neg (by rw [hcond]; simp)]
      rw [ih (acc ++ [x]) c hlast' hpunct hns']
      rw [List.append_assoc]
      rfl

theorem scanAux_split (a : List Char) :
    ∀ (acc rest : List Char) (c : Char), a.getLast? = some c → isPunct c = true →
      NoSplit a → rest.head? = some ' ' →
      scanAux acc (a ++ rest) = trimList (acc ++ a) :: scanAux [] rest := by
  induction a with
  | nil => exact fun acc rest c h _ _ _ => Option.noConfusion h
  | cons x a' ih =>
    intro acc rest c hlast hpunct hns hrest
    cases a' with
    | nil =>
      have hx : x = c := by
        have hx1 : ([x] : List Char).getLast? = some x := rfl
        rw [hx1] at hlast
        exact Option.some.inj hlast
      subst hx
      cases rest with
      | nil => exact Option.noConfusion hrest
      | cons r rest' =>
        have hr : r = ' ' := Option.some.inj hrest
        subst hr
        show scanAux acc (x :: (' ' :: rest')) = _
        rw [scanAux_cons]
        rw [if_pos (by simp [hpunct])]
    | cons y a'' =>
      have hpair := (List.chain'_cons'.mp hns).1 y rfl
      have hns' : NoSplit (y :: a'') := (List.chain'_cons'.mp hns).2
      have hlast' : (y :: a'').getLast? = some c := by
        rw [List.getLast?_cons_cons] at hlast
        exact hlast
      have hcond : (isPunct x &&
          (((y :: a'') ++ rest).isEmpty || ((y :: a'') ++ rest).head? == some ' '))
          = false := by
        by_cases hx : isPunct x = true
        · have hy : y ≠ ' ' := fun hy => hpair ⟨hx, hy⟩
          simp [List.cons_append, hx, hy]
        · simp [Bool.eq_false_iff.mpr hx]
      show scanAux acc (x :: (y :: a'' ++ rest)) = _
      rw [scanAux_cons]
      rw [if_neg (by rw [hcond]; simp)]
      rw [ih (acc ++ [x]) rest c hlast' hpunct hns' hrest]
      rw [List.append_assoc]
      rfl

theorem chain'_of_infix {R : Char → Char → Prop} (m p q l : List Char)
    (hl : l = p ++ m ++ q) (h : l.Chain' R) : m.Chain' R := by
  subst hl
  have h1 := (List.chain'_append.mp h).1
  exact (List.chain'_append.mp h1).2.1

theorem chain'_trimList {R : Char → Char → Prop} (l : List Char)
    (h : l.Chain' R) : (trimList l).Chain' R := by
  obtain ⟨p, q, hpq⟩ := trimList_is_infix l
  exact chain'_of_infix (trimList l) p q l hpq h

theorem chain'_append_singleton {R : Char → Char → Prop} (z : List Char) (d : Char)
    (hz : z.Chain' R) (hd : ∀ x, z.getLast? = some x → R x d) :
    (z ++ [d]).Chain' R := by
  refine List.chain'_append.mpr ⟨hz, List.chain'_singleton d, ?_⟩
  intro x hx y hy
  cases hy
  exact hd x hx

theorem spaceOnly_trimList (l : List Char) (h : SpaceOnly l) :
    SpaceOnly (trimList l) :=
  fun c hc => h c (mem_trimList l c hc)

theorem scanAux_members (input : List Char) :
    ∀ acc : List Char, SpaceOnly (acc ++ input) → NoDouble (acc ++ input) →
      NoSplit (acc ++ input.take 1) →
      ∀ s ∈ scanAux acc input,
        s ≠ [] ∧ trimList s = s ∧ SpaceOnly s ∧ NoDouble s ∧ NoSplit s := by
  induction input with
  | nil =>
    intro acc hso hnd hns s hs
    rw [scanAux_nil] at hs
    by_cases he : (trimList acc).isEmpty = true
    · rw [if_pos he] at hs
      exact absurd hs (List.not_mem_nil s)
    · rw [if_neg he] at hs
      rw [List.mem_singleton.mp hs]
      rw [List.append_nil] at hso hnd
      rw [List.take_nil, List.append_nil] at hns
      refine ⟨fun h0 => he (by rw [h0]; rfl), trimList_idem acc,
        spaceOnly_trimList acc hso, chain'_trimList acc hnd, chain'_trimList acc hns⟩
  | cons c rest ih =>
    intro acc hso hnd hns s hs
    have hnd' : NoDouble ((acc ++ [c]) ++ rest) := by
      rw [← List.append_cons]
      exact hnd
    have hso' : SpaceOnly ((acc ++ [c]) ++ rest) := by
      rw [← List.append_cons]
      exact hso
    have hnsc : NoSplit (acc ++ [c]) := by
      simpa using hns
    rw [scanAux_cons] at hs
    by_cases hcond : (isPunct c && (rest.isEmpty || rest.head? == some ' ')) = true
    · rw [if_pos hcond] at hs
      rcases List.mem_cons.mp hs with hs | hs
      · subst hs
        have hpunct : isPunct c = true := ((Bool.and_eq_true _ _).mp hcond).1
        have hlastc : (acc ++ [c]).getLast? = some c := List.getLast?_concat acc
        refine ⟨trimList_ne_nil_of_last _ c hlastc (punct_not_ws c hpunct),
          trimList_idem _, ?_, ?_, ?_⟩
        · refine spaceOnly_trimList _ (fun x hx => ?_)
          exact hso' x (List.mem_append_left rest hx)
        · exact chain'_trimList _ ((List.chain'_append.mp hnd').1)
        · exact chain'_trimList _ hnsc
      · refine ih [] (fun x hx => hso' x (List.mem_append_right _ hx))
          ((List.chain'_append.mp hnd').2.1) ?_ s hs
        cases rest with
        | nil => exact List.chain'_nil
        | cons d rest' => exact List.chain'_singleton d
    · rw [if_neg hcond] at hs
      refine ih (acc ++ [c]) hso' hnd' ?_ s hs
      cases rest with
      | nil =>
        rw [List.take_nil, List.append_nil]
        exact hnsc
      | cons d rest' =>
        have hpair : ¬(isPunct c = true ∧ d = ' ') := by
          intro ⟨hp, hd⟩
          subst hd
          simp [hp] at hcond
        refine chain'_append_singleton (acc ++ [c]) d hnsc ?_
        intro x hx
        rw [List.getLast?_concat] at hx
        cases hx
        exact hpair

theorem scanAux_dropLast_punct (input : List Char) :
    ∀ acc, ∀ s ∈ (scanAux acc input).dropLast,
      ∃ c, s.getLast? = some c ∧ isPunct c = true := by
  induction input with
  | nil =>
    intro acc s hs
    rw [scanAux_nil] at hs
    by_cases he : (trimList acc).isEmpty = true
    · rw [if_pos he] at hs
      exact absurd hs (List.not_mem_nil s)
    · rw [if_neg he] at hs
      exact absurd hs (List.not_mem_nil s)
  | cons c rest ih =>
    intro acc s hs
    rw [scanAux_cons] at hs
    by_cases hcond : (isPunct c && (rest.isEmpty || rest.head? == some ' ')) = true
    · rw [if_pos hcond] at hs
      cases hL : scanAux [] rest with
      | nil =>
        rw [hL] at hs
        exact absurd hs (List.not_mem_nil s)
      | cons l0 L' =>
        rw [hL, List.dropLast_cons₂] at hs
        rcases List.mem_cons.mp hs with hs | hs
        · subst hs
          have hpunct : isPunct c = true := ((Bool.and_eq_true _ _).mp hcond).1
          have hlastc : (acc ++ [c]).getLast? = some c := List.getLast?_concat acc
          exact ⟨c, (trimList_eq_dropWhile _ c hlastc (punct_not_ws c hpunct)).2, hpunct⟩
        · rw [← hL] at hs
          exact ih [] s hs
    · rw [if_neg hcond] at hs
      exact ih (acc ++ [c]) s hs

theorem cleanedText_spaceOnly (l : List Char) : SpaceOnly (cleanedText l) :=
  collapse_spaceOnly _ false

theorem cleanedText_noDouble (l : List Char) : NoDouble (cleanedText l) :=
  collapse_noDouble _ false

theorem take_one_noSplit (cl : List Char) : NoSplit (cl.take 1) := by
  cases cl with
  | nil => exact List.chain'_nil
  | cons d rest => exact List.chain'_singleton d

theorem head_not_ws_of_fix (s : List Char) (hfix : trimList s = s) (c : Char)
    (h : s.head? = some c) : isJsWs c = false :=
  head_trimList_not_ws s c (by rw [hfix]; exact h)

theorem extractCore_idem (l z : List Char)
    (h1 : extractCore l = some z)
    (h2 : ∃ c, z.getLast? = some c ∧ isPunct c = true)
    (h3 : stripArtifacts z = z) :
    extractCore z = some z := by
  obtain ⟨c, hlast, hpunct⟩ := h2
  unfold extractCore at h1
  by_cases hg : (trimList l).isEmpty = true
  · rw [if_pos hg] at h1
    exact Option.noConfusion h1
  rw [if_neg hg] at h1
  have hQ := scanAux_members (cleanedText l) []
    (by simpa using cleanedText_spaceOnly l)
    (by simpa using cleanedText_noDouble l)
    (by simpa using take_one_noSplit (cleanedText l))
  cases hrev : (scanAux [] (cleanedText l)).reverse with
  | nil =>
    rw [hrev] at h1
    exact Option.noConfusion h1
  | cons b tail =>
    cases tail with
    | nil =>
      rw [hrev] at h1
      have h1' : (if b.isEmpty = true then (none : Option (List Char)) else some b)
          = some z := h1
      by_cases hbe : b.isEmpty = true
      · rw [if_pos hbe] at h1'
        exact Option.noConfusion h1'
      rw [if_neg hbe] at h1'
      have hz := Option.some.inj h1'
      subst hz
      have hmem : b ∈ scanAux [] (cleanedText l) := by
        rw [← List.reverse_reverse (scanAux [] (cleanedText l)), hrev]
        exact List.mem_singleton.mpr rfl
      obtain ⟨hne, hfix, hso, hnd, hns⟩ := hQ b hmem
      unfold extractCore
      rw [if_neg (by rw [hfix]; simpa using hne)]
      have hcb : cleanedText b = b := by
        unfold cleanedText
        rw [hfix, h3]
        exact collapse_id b false hso hnd (fun h => Bool.noConfusion h)
      rw [hcb, scanAux_consume b [] c hlast hpunct hns]
      rw [List.nil_append, hfix]
      show (if b.isEmpty = true then (none : Option (List Char)) else some b) = some b
      rw [if_neg hbe]
    | cons a tail2 =>
      rw [hrev] at h1
      have h1' : some (a ++ ' ' :: b) = some z := h1
      have hz := Option.some.inj h1'
      subst hz
      have hss : scanAux [] (cleanedText l) = (tail2.reverse ++ [a]) ++ [b] := by
        rw [← List.reverse_reverse (scanAux [] (cleanedText l)), hrev]
        simp
      have hmem_a : a ∈ scanAux [] (cleanedText l) := by
        rw [hss]
        simp
      have hmem_b : b ∈ scanAux [] (cleanedText l) := by
        rw [hss]
        simp
      obtain ⟨hne_a, hfix_a, hso_a, hnd_a, hns_a⟩ := hQ a hmem_a
      obtain ⟨hne_b, hfix_b, hso_b, hnd_b, hns_b⟩ := hQ b hmem_b
      obtain ⟨ca, hlast_a, hpunct_a⟩ : ∃ ca, a.getLast? = some ca ∧ isPunct ca = true := by
        refine scanAux_dropLast_punct (cleanedText l) [] a ?_
        rw [hss, List.dropLast_concat]
        simp
      have hlast_b : b.getLast? = some c := by
        have hgl : (a ++ ' ' :: b).getLast? = b.getLast? := by
          rw [List.getLast?_append_of_ne_nil a (List.cons_ne_nil ' ' b)]
          rw [show (' ' :: b : List Char) = [' '] ++ b from rfl]
          rw [List.getLast?_append_of_ne_nil [' '] hne_b]
        rw [hgl] at hlast
        exact hlast
      have hhead_a : ∀ x, a.head? = some x → isJsWs x = false :=
        fun x hx => head_not_ws_of_fix a hfix_a x hx
      have hhead_b : ∀ x, b.head? = some x → isJsWs x = false :=
        fun x hx => head_not_ws_of_fix b hfix_b x hx
      have hso_z : SpaceOnly (a ++ ' ' :: b) := by
        intro x hx hwx
        rcases List.mem_append.mp hx with hx | hx
        · exact hso_a x hx hwx
        · rcases List.mem_cons.mp hx with hx | hx
          · exact hx
          · exact hso_b x hx hwx
      have hnd_z : NoDouble (a ++ ' ' :: b) := by
        refine List.chain'_append.mpr ⟨hnd_a, ?_, ?_⟩
        · refine List.chain'_cons'.mpr ⟨?_, hnd_b⟩
          intro y hy
          intro ⟨_, hwy⟩
          rw [hhead_b y hy] at hwy
          exact Bool.noConfusion hwy
        · intro x hx y hy
          cases hy
          intro ⟨hwx, _⟩
          rw [hlast_a] at hx
          cases hx
          rw [punct_not_ws ca hpunct_a] at hwx
          exact Bool.noConfusion hwx
      have htrim_z : trimList (a ++ ' ' :: b) = a ++ ' ' :: b := by
        refine trimList_eq_self _ ?_ ?_
        · intro x hx
          rw [List.head?_append_of_ne_nil] at hx
          · exact hhead_a x hx
          · exact hne_a
        · intro x hx
          have hgl : (a ++ ' ' :: b).getLast? = b.getLast? := by
            rw [List.getLast?_append_of_ne_nil a (List.cons_ne_nil ' ' b)]
            rw [show (' ' :: b : List Char) = [' '] ++ b from rfl]
            rw [List.getLast?_append_of_ne_nil [' '] hne_b]
          rw [hgl, hlast_b] at hx
          cases hx
          exact punct_not_ws c hpunct
      have hne_z : (a ++ ' ' :: b) ≠ [] := by
        intro h0
        exact List.cons_ne_nil ' ' b (List.append_eq_nil.mp h0).2
      unfold extractCore
      rw [if_neg (by rw [htrim_z]; simp)]
      have hcb : cleanedText (a ++ ' ' :: b) = a ++ ' ' :: b := by
        unfold cleanedText
        rw [htrim_z, h3]
        exact collapse_id _ false hso_z hnd_z (fun h => Bool.noConfusion h)
      rw [hcb]
      rw [scanAux_split a [] (' ' :: b) ca hlast_a hpunct_a hns_a rfl]
      rw [List.nil_append, hfix_a]
      rw [scanAux_cons]
      rw [if_neg (by simp [isPunct])]
      rw [show ([] ++ [' '] : List Char) = [' '] from rfl]
      rw [scanAux_consume b [' '] c hlast_b hpunct hns_b]
      rw [show ([' '] ++ b : List Char) = ' ' :: b from rfl]
      rw [trimList_cons_space, hfix_b]
      rfl

/-- Claim C6 as amended: for every string `x` such that
`extractLastTwoSentences x` is non-null, ends with `'.'`, `'!'` or `'?'` at
its final character, and — the proviso the counterexample forces — is left
unchanged by artifact-marker stripping (it contains no `<artifact ... />`
match), re-extraction is the identity:
`extractLastTwoSentences (extractLastTwoSentences x) = extractLastTwoSentences x`.
Without the proviso the equation can fail, because collapsing whitespace can
assemble a marker that only the second pass strips. -/
theorem extract_idempotent_amended (x s : String)
    (h1 : extractLastTwoSentences x = some s)
    (h2 : ∃ c, s.data.getLast? = some c ∧ isPunct c = true)
    (h3 : stripArtifacts s.data = s.data) :
    extractLastTwoSentences s = some s := by
  unfold extractLastTwoSentences at h1 ⊢
  cases hz : extractCore x.data with
  | none =>
    rw [hz] at h1
    exact Option.noConfusion h1
  | some z =>
    rw [hz] at h1
    have hs : String.mk z = s := Option.some.inj h1
    have hdata : s.data = z := by rw [← hs]
    rw [hdata] at h2 h3
    have hidem := extractCore_idem x.data z hz h2 h3
    rw [hdata, hidem]
    show some (String.mk z) = some s
    rw [hs]

/-- Witness for the amended C6 at the concrete input `"A. B. C."`. -/
theorem extract_idempotent_amended_witness :
    extractLastTwoSentences ("A. B. C.") = some ("B. C.") ∧
    extractLastTwoSentences ("B. C.") = some ("B. C.") :=
  ⟨by decide,
   extract_idempotent_amended ("A. B. C.") ("B. C.") (by decide)
     ⟨'.', by decide, by decide⟩ (by decide)⟩
